import Mathlib

/-!
Verification of the Ascon AEAD implementation in `flask api B/ascon.py`.

The Python source is shallowly embedded: byte strings become `List Nat`
(each element a byte, i.e. `< 256`), the five-word permutation state becomes
the structure `AsconState`, machine words are `Nat` with explicit unsigned
64-bit reasoning (every operation of the source is xor/and/or/shift on values
kept below `2 ^ 64`), and the Python `assert` statements become `Option`
returning wrappers (`none` models an assertion failure / raised exception).
Python's `None` return value of `ascon_decrypt` (authentication failure) is
modelled by the inner `Option`: `ascon_decrypt` returns
`some (some pt)` on success, `some none` on tag mismatch, and `none` when the
`assert` on the input length or the key length fires.
-/

/-- A byte string: every element is below 256. -/
def isBytes (l : List Nat) : Prop := ∀ b ∈ l, b < 256

instance (l : List Nat) : Decidable (isBytes l) := List.decidableBAll _ l

/-- The Ascon state: `S = [0, 0, 0, 0, 0]`, a list of five 64-bit words in the
source, embedded as a structure with five `Nat` fields. -/
structure AsconState where
  x0 : Nat
  x1 : Nat
  x2 : Nat
  x3 : Nat
  x4 : Nat
deriving DecidableEq, Repr

/-- All five words of the state are genuine unsigned 64-bit values. -/
def AsconState.bounded (S : AsconState) : Prop :=
  S.x0 < 2 ^ 64 ∧ S.x1 < 2 ^ 64 ∧ S.x2 < 2 ^ 64 ∧ S.x3 < 2 ^ 64 ∧ S.x4 < 2 ^ 64

instance (S : AsconState) : Decidable S.bounded := by
  unfold AsconState.bounded; infer_instance

/-- Source `zero_bytes(n)`: `n * b"\x00"`. -/
def zero_bytes (n : Nat) : List Nat := List.replicate n 0

/-- Source `bytes_to_int(bytes)`:
`sum([bi << ((len(bytes) - 1 - i)*8) for i, bi in enumerate(to_bytes(bytes))])`,
written as the equivalent big-endian recursion (the head byte is shifted by
8 times the number of remaining bytes). -/
def bytes_to_int : List Nat → Nat
  | [] => 0
  | b :: r => (b <<< (8 * r.length)) + bytes_to_int r

/-- Source `int_to_bytes(integer, nbytes)`:
`to_bytes([(integer >> ((nbytes - 1 - i) * 8)) % 256 for i in range(nbytes)])`. -/
def int_to_bytes (integer nbytes : Nat) : List Nat :=
  (List.range nbytes).map (fun i => (integer >>> ((nbytes - 1 - i) * 8)) % 256)

/-- Source `rotr(val, r)`: `(val >> r) | ((val & (1 << r)-1) << (64-r))`. -/
def rotr (val r : Nat) : Nat :=
  (val >>> r) ||| ((val &&& ((1 <<< r) - 1)) <<< (64 - r))

/-- Source `bytes_to_state(bytes)`:
`[bytes_to_int(bytes[8*w:8*(w+1)]) for w in range(5)]`. -/
def bytes_to_state (bs : List Nat) : AsconState :=
  ⟨bytes_to_int (bs.take 8),
   bytes_to_int ((bs.drop 8).take 8),
   bytes_to_int ((bs.drop 16).take 8),
   bytes_to_int ((bs.drop 24).take 8),
   bytes_to_int ((bs.drop 32).take 8)⟩

/-- One round of the Ascon permutation, body of the `for r in range(...)` loop
of `ascon_permutation`.  The sequence of in-place updates of the source is
rendered as a chain of `let` bindings; each `let` shadows the previous value of
the same word exactly where the source overwrites it. -/
def ascon_round (S : AsconState) (r : Nat) : AsconState :=
  -- add round constants: S[2] ^= (0xf0 - r*0x10 + r*0x1)
  let s2 := S.x2 ^^^ (0xf0 - r * 0x10 + r * 0x1)
  -- substitution layer
  let s0 := S.x0 ^^^ S.x4
  let s4 := S.x4 ^^^ S.x3
  let s2 := s2 ^^^ S.x1
  -- T = [(S[i] ^ 0xFF..FF) & S[(i+1) % 5] for i in range(5)]
  let t0 := (s0 ^^^ 0xFFFFFFFFFFFFFFFF) &&& S.x1
  let t1 := (S.x1 ^^^ 0xFFFFFFFFFFFFFFFF) &&& s2
  let t2 := (s2 ^^^ 0xFFFFFFFFFFFFFFFF) &&& S.x3
  let t3 := (S.x3 ^^^ 0xFFFFFFFFFFFFFFFF) &&& s4
  let t4 := (s4 ^^^ 0xFFFFFFFFFFFFFFFF) &&& s0
  -- for i in range(5): S[i] ^= T[(i+1) % 5]
  let s0 := s0 ^^^ t1
  let s1 := S.x1 ^^^ t2
  let s2 := s2 ^^^ t3
  let s3 := S.x3 ^^^ t4
  let s4 := s4 ^^^ t0
  let s1 := s1 ^^^ s0
  let s0 := s0 ^^^ s4
  let s3 := s3 ^^^ s2
  let s2 := s2 ^^^ 0xFFFFFFFFFFFFFFFF
  -- linear diffusion layer
  ⟨s0 ^^^ (rotr s0 19 ^^^ rotr s0 28),
   s1 ^^^ (rotr s1 61 ^^^ rotr s1 39),
   s2 ^^^ (rotr s2 1 ^^^ rotr s2 6),
   s3 ^^^ (rotr s3 10 ^^^ rotr s3 17),
   s4 ^^^ (rotr s4 7 ^^^ rotr s4 41)⟩

/-- Source `ascon_permutation(S, rounds)` without its `assert`:
`for r in range(12-rounds, 12): ...` (for `rounds ≤ 12` the loop runs over
`r = 12-rounds, ..., 11`). -/
def ascon_permutation (S : AsconState) (rounds : Nat) : AsconState :=
  (List.range' (12 - rounds) rounds).foldl ascon_round S

/-- Source `ascon_permutation` including its `assert(rounds <= 12)`:
`none` models the assertion failure. -/
def ascon_permutation_checked (S : AsconState) (rounds : Nat) : Option AsconState :=
  if rounds ≤ 12 then some (ascon_permutation S rounds) else none

/-- The 40-byte initialization vector built at the start of
`ascon_initialize`:
`to_bytes([k, rate * 8, a, b] + (20-len(key))*[0]) + key + nonce`. -/
def ascon_iv (k rate a b : Nat) (key nonce : List Nat) : List Nat :=
  (([k, rate * 8, a, b] ++ List.replicate (20 - key.length) 0) ++ key) ++ nonce

/-- Source `ascon_initialize(S, k, rate, a, b, key, nonce)`.  The source
mutates its out-parameter `S`; the embedding returns the resulting state. -/
def ascon_initialize (k rate a b : Nat) (key nonce : List Nat) : AsconState :=
  let S := bytes_to_state (ascon_iv k rate a b key nonce)
  let S := ascon_permutation S a
  let zero_key := bytes_to_state (zero_bytes (40 - key.length) ++ key)
  ⟨S.x0 ^^^ zero_key.x0, S.x1 ^^^ zero_key.x1, S.x2 ^^^ zero_key.x2,
   S.x3 ^^^ zero_key.x3, S.x4 ^^^ zero_key.x4⟩

/-- Fuel-driven worker for `chunks`: structural recursion on the fuel so that
the definition reduces inside the kernel.  The fuel is always instantiated
with the length of the list, which suffices because each step consumes at
least one element. -/
def chunks_go (rate : Nat) : Nat → List Nat → List (List Nat)
  | _, [] => []
  | 0, _ :: _ => []
  | fuel + 1, x :: xs =>
      if rate = 0 then []
      else (x :: xs).take rate :: chunks_go rate fuel ((x :: xs).drop rate)

/-- Successive slices `l[block:block+rate]` for `block in range(0, len(l), rate)`,
i.e. the list cut into chunks of `rate` bytes (the final chunk may be shorter
when the length is not a multiple of `rate`).  Python's `range` with step 0
raises; that unreachable case is mapped to `[]`. -/
def chunks (rate : Nat) (l : List Nat) : List (List Nat) :=
  chunks_go rate l.length l

/-- Source `ascon_process_associated_data(S, b, rate, associateddata)`.
For nonempty associated data, each `rate`-byte block of the padded data has its
first 8 bytes (`a_padded[block:block+8]`) xored into word 0 followed by a
`b`-round permutation; word 4 is xored with 1 in every case. -/
def ascon_process_associated_data (S : AsconState) (b rate : Nat)
    (associateddata : List Nat) : AsconState :=
  let S :=
    if 0 < associateddata.length then
      let a_zeros := rate - (associateddata.length % rate) - 1
      let a_padded := associateddata ++ (0x80 :: List.replicate a_zeros 0)
      (chunks rate a_padded).foldl
        (fun T blk =>
          ascon_permutation { T with x0 := T.x0 ^^^ bytes_to_int (blk.take 8) } b)
        S
    else S
  { S with x4 := S.x4 ^^^ 1 }

/-- The block loop of `ascon_process_plaintext`: every block except the last
is absorbed into word 0, emitted as 8 ciphertext bytes and followed by a
`b`-round permutation (`for block in range(0, len(p_padded) - rate, rate)`);
the last block is absorbed and only its first `p_lastlen` bytes are emitted,
with no further permutation.  The `[]` case is unreachable (padding always
produces at least one block). -/
def ascon_process_plaintext_loop (b p_lastlen : Nat) (S : AsconState) :
    List (List Nat) → List Nat × AsconState
  | [] => ([], S)
  | [blk] =>
      let s0 := S.x0 ^^^ bytes_to_int (blk.take 8)
      ((int_to_bytes s0 8).take p_lastlen, { S with x0 := s0 })
  | blk :: rest =>
      let s0 := S.x0 ^^^ bytes_to_int (blk.take 8)
      let next := ascon_process_plaintext_loop b p_lastlen
        (ascon_permutation { S with x0 := s0 } b) rest
      (int_to_bytes s0 8 ++ next.1, next.2)

/-- Source `ascon_process_plaintext(S, b, rate, plaintext)`:
pad with `0x80` then zeros up to a multiple of `rate`, then run the block
loop.  Returns the ciphertext together with the updated state. -/
def ascon_process_plaintext (S : AsconState) (b rate : Nat)
    (plaintext : List Nat) : List Nat × AsconState :=
  let p_lastlen := plaintext.length % rate
  let p_padding := 0x80 :: List.replicate (rate - p_lastlen - 1) 0x00
  let p_padded := plaintext ++ p_padding
  ascon_process_plaintext_loop b p_lastlen S (chunks rate p_padded)

/-- The block loop of `ascon_process_ciphertext`, both the `rate == 8` and the
`rate == 16` branches of the source (the source's `if`/`elif` with no other
case leaves the state untouched apart from the permutation for any other
rate).  The last block reconstructs the encrypt-side `0x80` padding through
`c_mask` and `c_padding1`. -/
def ascon_process_ciphertext_loop (b rate c_lastlen : Nat) (S : AsconState) :
    List (List Nat) → List Nat × AsconState
  | [] => ([], S)
  | [blk] =>
      if rate = 8 then
        let c_padding1 := 0x80 <<< ((rate - c_lastlen - 1) * 8)
        let c_mask := 0xFFFFFFFFFFFFFFFF >>> (c_lastlen * 8)
        let Ci := bytes_to_int (blk.take 8)
        ((int_to_bytes (Ci ^^^ S.x0) 8).take c_lastlen,
         { S with x0 := Ci ^^^ (S.x0 &&& c_mask) ^^^ c_padding1 })
      else if rate = 16 then
        let c_lastlen_word := c_lastlen % 8
        let c_padding1 := 0x80 <<< ((8 - c_lastlen_word - 1) * 8)
        let c_mask := 0xFFFFFFFFFFFFFFFF >>> (c_lastlen_word * 8)
        let Ci0 := bytes_to_int (blk.take 8)
        let Ci1 := bytes_to_int ((blk.drop 8).take 8)
        let pt := (int_to_bytes (S.x0 ^^^ Ci0) 8 ++
                   int_to_bytes (S.x1 ^^^ Ci1) 8).take c_lastlen
        if c_lastlen < 8 then
          (pt, { S with x0 := Ci0 ^^^ (S.x0 &&& c_mask) ^^^ c_padding1 })
        else
          (pt, { S with x0 := Ci0, x1 := Ci1 ^^^ (S.x1 &&& c_mask) ^^^ c_padding1 })
      else ([], S)
  | blk :: rest =>
      if rate = 8 then
        let Ci := bytes_to_int (blk.take 8)
        let next := ascon_process_ciphertext_loop b rate c_lastlen
          (ascon_permutation { S with x0 := Ci } b) rest
        (int_to_bytes (S.x0 ^^^ Ci) 8 ++ next.1, next.2)
      else if rate = 16 then
        let Ci0 := bytes_to_int (blk.take 8)
        let Ci1 := bytes_to_int ((blk.drop 8).take 8)
        let next := ascon_process_ciphertext_loop b rate c_lastlen
          (ascon_permutation { S with x0 := Ci0, x1 := Ci1 } b) rest
        (int_to_bytes (S.x0 ^^^ Ci0) 8 ++ int_to_bytes (S.x1 ^^^ Ci1) 8 ++ next.1,
         next.2)
      else
        let next := ascon_process_ciphertext_loop b rate c_lastlen
          (ascon_permutation S b) rest
        (next.1, next.2)

/-- Source `ascon_process_ciphertext(S, b, rate, ciphertext)`:
pad with zero bytes up to a multiple of `rate`, then run the block loop.
Returns the recovered plaintext together with the updated state. -/
def ascon_process_ciphertext (S : AsconState) (b rate : Nat)
    (ciphertext : List Nat) : List Nat × AsconState :=
  let c_lastlen := ciphertext.length % rate
  let c_padded := ciphertext ++ zero_bytes (rate - c_lastlen)
  ascon_process_ciphertext_loop b rate c_lastlen S (chunks rate c_padded)

/-- `S[i] ^= v` for a dynamic index `i` (used by `ascon_finalize`, whose
indices are `rate//8`, `rate//8+1`, `rate//8+2`). -/
def AsconState.xorWord (S : AsconState) (i v : Nat) : AsconState :=
  match i with
  | 0 => { S with x0 := S.x0 ^^^ v }
  | 1 => { S with x1 := S.x1 ^^^ v }
  | 2 => { S with x2 := S.x2 ^^^ v }
  | 3 => { S with x3 := S.x3 ^^^ v }
  | 4 => { S with x4 := S.x4 ^^^ v }
  | _ => S

/-- Source `ascon_finalize(S, rate, a, key)` without its `assert`.  The Python
slices `key[0:8]`, `key[8:16]`, `key[16:]`, `key[-16:-8]`, `key[-8:]` are
rendered with `take`/`drop`; for the negative indices this matches Python for
`len(key) ≥ 16`, which the `assert` (modelled in the checked wrapper)
guarantees.  Returns the tag together with the updated state. -/
def ascon_finalize (S : AsconState) (rate a : Nat) (key : List Nat) :
    List Nat × AsconState :=
  let S := ((S.xorWord (rate / 8) (bytes_to_int (key.take 8))).xorWord
      (rate / 8 + 1) (bytes_to_int ((key.drop 8).take 8))).xorWord
      (rate / 8 + 2) (bytes_to_int (key.drop 16))
  let S := ascon_permutation S a
  let s3 := S.x3 ^^^ bytes_to_int ((key.drop (key.length - 16)).take 8)
  let s4 := S.x4 ^^^ bytes_to_int (key.drop (key.length - 8))
  (int_to_bytes s3 8 ++ int_to_bytes s4 8, { S with x3 := s3, x4 := s4 })

/-- Source `ascon_finalize` including its `assert(len(key) in [16, 20])`. -/
def ascon_finalize_checked (S : AsconState) (rate a : Nat) (key : List Nat) :
    Option (List Nat × AsconState) :=
  if key.length = 16 ∨ key.length = 20 then some (ascon_finalize S rate a key)
  else none

/-- Source `ascon_encrypt(key, associateddata, nonce, plaintext)` with
`k = 128`, `a = 12`, `b = 6`, `rate = 8` as in the source.  `none` models the
assertion failure raised from `ascon_finalize` for an invalid key length. -/
def ascon_encrypt (key associateddata nonce plaintext : List Nat) :
    Option (List Nat) :=
  let S := ascon_initialize 128 8 12 6 key nonce
  let S := ascon_process_associated_data S 6 8 associateddata
  let c := ascon_process_plaintext S 6 8 plaintext
  (ascon_finalize_checked c.2 8 12 key).map (fun t => c.1 ++ t.1)

/-- Source `ascon_decrypt(key, associateddata, nonce, ciphertext)` with
`k = len(key) * 8`, `a = 12`, `b = 6`, `rate = 8` as in the source.
The outer `Option` models the assertions (`assert(len(ciphertext) >= 16)` and
the key-length assert inside `ascon_finalize`); the inner `Option` is the
source's return value: `some pt` for the recovered plaintext, `none` for
Python's `None` on tag mismatch. -/
def ascon_decrypt (key associateddata nonce ciphertext : List Nat) :
    Option (Option (List Nat)) :=
  if ciphertext.length < 16 then none
  else
    let S := ascon_initialize (key.length * 8) 8 12 6 key nonce
    let S := ascon_process_associated_data S 6 8 associateddata
    let p := ascon_process_ciphertext S 6 8
      (ciphertext.take (ciphertext.length - 16))
    match ascon_finalize_checked p.2 8 12 key with
    | none => none
    | some t =>
        if t.1 = ciphertext.drop (ciphertext.length - 16) then some (some p.1)
        else some none

/-- The shape of the non-empty block list produced by the encrypt-side padding
at rate 8: every block is 8 bytes of byte values, and the final block carries
the `0x80`-led padding from position `L` on. -/
def goodBlocks (L : Nat) : List (List Nat) → Prop
  | [] => False
  | [blk] => blk.length = 8 ∧ isBytes blk ∧
      blk.drop L = 0x80 :: List.replicate (8 - L - 1) 0
  | blk :: rest => blk.length = 8 ∧ isBytes blk ∧ goodBlocks L rest

/-- Concatenation of a block list, the final block truncated to its first `L`
bytes: the plaintext that a padded block list carries. -/
def lastTrunc (L : Nat) : List (List Nat) → List Nat
  | [] => []
  | [blk] => blk.take L
  | blk :: rest => blk ++ lastTrunc L rest

/-- Modelled from the spec (section 4.1): per round, XOR the constant
`0xf0 - r*0x10 + r*0x1` for round index `r` into word 2. -/
def round_constant_addition (r : Nat) (S : AsconState) : AsconState :=
  { S with x2 := S.x2 ^^^ (0xf0 - r * 0x10 + r * 0x1) }

/-- Modelled from the spec (section 4.1): the substitution layer.  Three fix-up
XORs (`S[0]^=S[4]`, `S[4]^=S[3]`, `S[2]^=S[1]`) first; then
`T[i] = NOT(S[i]) AND S[(i+1) mod 5]` computed from the pre-mix values and
`S[i] ^= T[(i+1) mod 5]`; then the four fix-up XORs `S[1]^=S[0]`,
`S[0]^=S[4]`, `S[3]^=S[2]`, `S[2]^=NOT 0`.  NOT is the 64-bit complement,
i.e. XOR with the all-ones mask. -/
def substitution_layer (S : AsconState) : AsconState :=
  let b0 := S.x0 ^^^ S.x4
  let b1 := S.x1
  let b2 := S.x2 ^^^ S.x1
  let b3 := S.x3
  let b4 := S.x4 ^^^ S.x3
  let t0 := (b0 ^^^ 0xFFFFFFFFFFFFFFFF) &&& b1
  let t1 := (b1 ^^^ 0xFFFFFFFFFFFFFFFF) &&& b2
  let t2 := (b2 ^^^ 0xFFFFFFFFFFFFFFFF) &&& b3
  let t3 := (b3 ^^^ 0xFFFFFFFFFFFFFFFF) &&& b4
  let t4 := (b4 ^^^ 0xFFFFFFFFFFFFFFFF) &&& b0
  let c0 := b0 ^^^ t1
  let c1 := b1 ^^^ t2
  let c2 := b2 ^^^ t3
  let c3 := b3 ^^^ t4
  let c4 := b4 ^^^ t0
  let d1 := c1 ^^^ c0
  let d0 := c0 ^^^ c4
  let d3 := c3 ^^^ c2
  let d2 := c2 ^^^ 0xFFFFFFFFFFFFFFFF
  ⟨d0, d1, d2, d3, c4⟩

/-- Modelled from the spec (section 4.1): the linear diffusion layer,
`S[i] ^= rotr(S[i], r1) ^ rotr(S[i], r2)` with rotation pairs
`(19,28), (61,39), (1,6), (10,17), (7,41)` for words 0 to 4. -/
def linear_diffusion_layer (S : AsconState) : AsconState :=
  ⟨S.x0 ^^^ (rotr S.x0 19 ^^^ rotr S.x0 28),
   S.x1 ^^^ (rotr S.x1 61 ^^^ rotr S.x1 39),
   S.x2 ^^^ (rotr S.x2 1 ^^^ rotr S.x2 6),
   S.x3 ^^^ (rotr S.x3 10 ^^^ rotr S.x3 17),
   S.x4 ^^^ (rotr S.x4 7 ^^^ rotr S.x4 41)⟩

/-! ### Basic facts about 64-bit words -/

theorem chunks_go_congr (rate : Nat) :
    ∀ (fuel fuel' : Nat) (l : List Nat), l.length ≤ fuel → l.length ≤ fuel' →
    chunks_go rate fuel l = chunks_go rate fuel' l := by
  intro fuel
  induction fuel with
  | zero =>
      intro fuel' l hl hl'
      have : l = [] := List.eq_nil_of_length_eq_zero (by omega)
      subst this
      cases fuel' <;> rfl
  | succ n ih =>
      intro fuel' l hl hl'
      cases l with
      | nil => cases fuel' <;> rfl
      | cons x xs =>
          cases fuel' with
          | zero => simp at hl'
          | succ m =>
              simp only [chunks_go]
              by_cases hr : rate = 0
              · rw [if_pos hr, if_pos hr]
              · rw [if_neg hr, if_neg hr]
                congr 1
                apply ih
                · simp only [List.length_drop, List.length_cons] at *
                  omega
                · simp only [List.length_drop, List.length_cons] at *
                  omega

theorem chunks_eq (rate : Nat) (l : List Nat) :
    chunks rate l = if l = [] ∨ rate = 0 then []
      else l.take rate :: chunks rate (l.drop rate) := by
  unfold chunks
  cases l with
  | nil => simp [chunks_go]
  | cons x xs =>
      by_cases hr : rate = 0
      · simp [chunks_go, hr]
      · simp only [List.length_cons, chunks_go, if_neg hr]
        rw [if_neg (by simp [hr] : ¬(x :: xs = [] ∨ rate = 0))]
        congr 1
        apply chunks_go_congr
        · simp only [List.length_drop, List.length_cons]
          omega
        · exact Nat.le_refl _

theorem xor_lt64 {a b : Nat} (ha : a < 2 ^ 64) (hb : b < 2 ^ 64) :
    a ^^^ b < 2 ^ 64 := Nat.xor_lt_two_pow ha hb

theorem and_lt64 {a b : Nat} (hb : b < 2 ^ 64) : a &&& b < 2 ^ 64 :=
  Nat.lt_of_le_of_lt Nat.and_le_right hb

theorem rotr_lt64 {a : Nat} (r : Nat) (ha : a < 2 ^ 64) (hr : r ≤ 64) :
    rotr a r < 2 ^ 64 := by
  unfold rotr
  apply Nat.or_lt_two_pow
  · have : a >>> r ≤ a := by
      rw [Nat.shiftRight_eq_div_pow]; exact Nat.div_le_self _ _
    exact Nat.lt_of_le_of_lt this ha
  · have h1 : a &&& ((1 <<< r) - 1) ≤ (1 <<< r) - 1 := Nat.and_le_right
    have h2 : (1:Nat) <<< r = 2 ^ r := by simp [Nat.shiftLeft_eq]
    have hp : 0 < 2 ^ r := Nat.pos_pow_of_pos _ (by norm_num)
    calc (a &&& ((1 <<< r) - 1)) <<< (64 - r)
        = (a &&& ((1 <<< r) - 1)) * 2 ^ (64 - r) := Nat.shiftLeft_eq _ _
      _ ≤ (2 ^ r - 1) * 2 ^ (64 - r) := by
          apply Nat.mul_le_mul_right
          omega
      _ < 2 ^ r * 2 ^ (64 - r) :=
          mul_lt_mul_of_pos_right (by omega)
            (Nat.pos_pow_of_pos _ (by norm_num))
      _ = 2 ^ 64 := by rw [← pow_add]; congr 1; omega

theorem shiftRight_xor_distrib (x y n : Nat) :
    (x ^^^ y) >>> n = x >>> n ^^^ y >>> n := by
  apply Nat.eq_of_testBit_eq
  intro i
  simp [Nat.testBit_xor, Nat.testBit_shiftRight]

theorem mod_two_pow_xor (x y n : Nat) :
    (x ^^^ y) % 2 ^ n = x % 2 ^ n ^^^ y % 2 ^ n := by
  apply Nat.eq_of_testBit_eq
  intro i
  simp only [Nat.testBit_xor, Nat.testBit_mod_two_pow]
  cases Decidable.em (i < n) with
  | inl h => simp [h]
  | inr h => simp [h]

theorem and_mask_mod (x n : Nat) : x &&& (2 ^ n - 1) = x % 2 ^ n := by
  apply Nat.eq_of_testBit_eq
  intro i
  simp [Nat.testBit_and, Nat.testBit_two_pow_sub_one, Nat.testBit_mod_two_pow,
    Bool.and_comm]

theorem mask_shiftRight {a b : Nat} (h : b ≤ a) :
    (2 ^ a - 1) >>> b = 2 ^ (a - b) - 1 := by
  apply Nat.eq_of_testBit_eq
  intro i
  simp only [Nat.testBit_shiftRight, Nat.testBit_two_pow_sub_one]
  have : b + i < a ↔ i < a - b := by omega
  simp [this]

theorem shiftRight_shiftLeft_xor_mod (n s : Nat) :
    (n >>> s) <<< s ^^^ n % 2 ^ s = n := by
  apply Nat.eq_of_testBit_eq
  intro i
  simp only [Nat.testBit_xor, Nat.testBit_shiftLeft, Nat.testBit_shiftRight,
    Nat.testBit_mod_two_pow, ge_iff_le]
  rcases Nat.lt_or_ge i s with h | h
  · simp [h, Nat.not_le.mpr h]
  · simp [h, Nat.not_lt.mpr h, Nat.add_sub_cancel' h]

theorem shiftLeft_shiftRight_cancel (m s : Nat) : (m <<< s) >>> s = m := by
  apply Nat.eq_of_testBit_eq
  intro i
  simp [Nat.testBit_shiftRight, Nat.testBit_shiftLeft, Nat.le_add_right,
    Nat.add_sub_cancel_left]

theorem xor_cancel_left (x y : Nat) : x ^^^ (x ^^^ y) = y := by
  rw [← Nat.xor_assoc, Nat.xor_self, Nat.zero_xor]

theorem xor_xor_cancel_right (x y : Nat) : (x ^^^ y) ^^^ x = y := by
  rw [Nat.xor_comm x y, Nat.xor_assoc, Nat.xor_self, Nat.xor_zero]

/-! ### Facts about byte/integer conversion -/

theorem length_int_to_bytes (n k : Nat) : (int_to_bytes n k).length = k := by
  simp [int_to_bytes]

theorem isBytes_int_to_bytes (n k : Nat) : isBytes (int_to_bytes n k) := by
  intro b hb
  simp only [int_to_bytes, List.mem_map] at hb
  obtain ⟨i, _, rfl⟩ := hb
  exact Nat.mod_lt _ (by norm_num)

theorem int_to_bytes_succ (n k : Nat) :
    int_to_bytes n (k + 1) = (n >>> (8 * k)) % 256 :: int_to_bytes n k := by
  simp only [int_to_bytes, List.range_succ_eq_map, List.map_cons, List.map_map]
  congr 1
  · congr 2
    omega
  · apply List.map_congr_left
    intro i hi
    simp only [Function.comp_apply, Nat.succ_eq_add_one]
    congr 2
    omega

theorem int_to_bytes_mod (n k : Nat) :
    int_to_bytes n k = int_to_bytes (n % 2 ^ (8 * k)) k := by
  simp only [int_to_bytes]
  apply List.map_congr_left
  intro i hi
  rw [List.mem_range] at hi
  have h256 : (256 : Nat) = 2 ^ 8 := rfl
  rw [h256]
  apply Nat.eq_of_testBit_eq
  intro j
  simp only [Nat.testBit_mod_two_pow, Nat.testBit_shiftRight]
  rcases Nat.lt_or_ge j 8 with hj | hj
  · have hlt : (k - 1 - i) * 8 + j < 8 * k := by omega
    simp [hj, hlt]
  · simp [Nat.not_lt.mpr hj]

theorem bytes_to_int_append (a c : List Nat) :
    bytes_to_int (a ++ c) = (bytes_to_int a <<< (8 * c.length)) + bytes_to_int c := by
  induction a with
  | nil => simp [bytes_to_int]
  | cons b r ih =>
      simp only [List.cons_append, bytes_to_int, List.append_eq]
      rw [ih]
      simp only [List.length_append, Nat.shiftLeft_eq]
      have h : 8 * (r.length + c.length) = 8 * r.length + 8 * c.length := by ring
      rw [h, pow_add]
      ring

theorem bytes_to_int_lt {l : List Nat} (h : isBytes l) :
    bytes_to_int l < 2 ^ (8 * l.length) := by
  induction l with
  | nil => simp [bytes_to_int]
  | cons b r ih =>
      have hb : b < 256 := h b (List.mem_cons_self _ _)
      have hr : bytes_to_int r < 2 ^ (8 * r.length) :=
        ih (fun x hx => h x (List.mem_cons_of_mem _ hx))
      simp only [bytes_to_int, List.length_cons, Nat.shiftLeft_eq]
      have : 8 * (r.length + 1) = 8 * r.length + 8 := by omega
      rw [this, pow_add]
      calc b * 2 ^ (8 * r.length) + bytes_to_int r
          < b * 2 ^ (8 * r.length) + 2 ^ (8 * r.length) := by omega
        _ = (b + 1) * 2 ^ (8 * r.length) := by ring
        _ ≤ 256 * 2 ^ (8 * r.length) := by
            apply Nat.mul_le_mul_right; omega
        _ = 2 ^ (8 * r.length) * 2 ^ 8 := by ring_nf

theorem bytes_to_int_lt64 {l : List Nat} (h : isBytes l) (hl : l.length ≤ 8) :
    bytes_to_int l < 2 ^ 64 := by
  have := bytes_to_int_lt h
  calc bytes_to_int l < 2 ^ (8 * l.length) := this
    _ ≤ 2 ^ 64 := Nat.pow_le_pow_right (by norm_num) (by omega)

theorem bytes_to_int_replicate_zero (n : Nat) :
    bytes_to_int (List.replicate n 0) = 0 := by
  induction n with
  | zero => simp [bytes_to_int]
  | succ m ih => simp [List.replicate_succ, bytes_to_int, ih]

theorem int_to_bytes_bytes_to_int {l : List Nat} (h : isBytes l) :
    int_to_bytes (bytes_to_int l) l.length = l := by
  induction l with
  | nil => simp [int_to_bytes]
  | cons b r ih =>
      have hb : b < 256 := h b (List.mem_cons_self _ _)
      have hbs : isBytes r := fun x hx => h x (List.mem_cons_of_mem _ hx)
      have hr : bytes_to_int r < 2 ^ (8 * r.length) := bytes_to_int_lt hbs
      simp only [List.length_cons, int_to_bytes_succ]
      congr 1
      · simp only [bytes_to_int, Nat.shiftLeft_eq, Nat.shiftRight_eq_div_pow]
        have hpos : 0 < 2 ^ (8 * r.length) :=
          Nat.pos_pow_of_pos _ (by norm_num)
        have hdiv : (b * 2 ^ (8 * r.length) + bytes_to_int r) / 2 ^ (8 * r.length)
            = b := by
          rw [Nat.add_comm, Nat.add_mul_div_right _ _ hpos,
            Nat.div_eq_of_lt hr]
          omega
        rw [hdiv, Nat.mod_eq_of_lt hb]
      · rw [int_to_bytes_mod]
        have hm : (bytes_to_int (b :: r)) % 2 ^ (8 * r.length) = bytes_to_int r := by
          simp only [bytes_to_int, Nat.shiftLeft_eq]
          rw [Nat.add_comm, Nat.add_mul_mod_self_right, Nat.mod_eq_of_lt hr]
        rw [hm]
        exact ih hbs

theorem bytes_to_int_int_to_bytes {n k : Nat} (h : n < 2 ^ (8 * k)) :
    bytes_to_int (int_to_bytes n k) = n := by
  induction k generalizing n with
  | zero => simp [int_to_bytes, bytes_to_int] at *; omega
  | succ m ih =>
      rw [int_to_bytes_succ]
      simp only [bytes_to_int, length_int_to_bytes]
      have hmod : int_to_bytes n m = int_to_bytes (n % 2 ^ (8 * m)) m :=
        int_to_bytes_mod n m
      rw [hmod, ih (Nat.mod_lt _ (Nat.pos_pow_of_pos _ (by norm_num)))]
      have hdiv : n >>> (8 * m) % 256 = n / 2 ^ (8 * m) := by
        rw [Nat.shiftRight_eq_div_pow]
        apply Nat.mod_eq_of_lt
        apply Nat.div_lt_of_lt_mul
        calc n < 2 ^ (8 * (m + 1)) := h
          _ = 2 ^ (8 * m) * 256 := by
              have h8 : 8 * (m + 1) = 8 * m + 8 := by ring
              rw [h8, pow_add]
              norm_num
      rw [hdiv, Nat.shiftLeft_eq]
      exact Nat.div_add_mod' n (2 ^ (8 * m))

theorem take_int_to_bytes {L k : Nat} (n : Nat) (h : L ≤ k) :
    (int_to_bytes n k).take L = int_to_bytes (n >>> ((k - L) * 8)) L := by
  simp only [int_to_bytes, ← List.map_take, List.take_range]
  have hmin : L ⊓ k = L := inf_eq_left.mpr h
  rw [hmin]
  apply List.map_congr_left
  intro i hi
  rw [List.mem_range] at hi
  rw [← Nat.shiftRight_add]
  congr 2
  omega

/-! ### Byte-string dissection -/

theorem isBytes_take {l : List Nat} (h : isBytes l) (n : Nat) :
    isBytes (l.take n) := fun x hx => h x (List.take_subset _ _ hx)

theorem isBytes_drop {l : List Nat} (h : isBytes l) (n : Nat) :
    isBytes (l.drop n) := fun x hx => h x (List.drop_subset _ _ hx)

theorem isBytes_append {a c : List Nat} (ha : isBytes a) (hc : isBytes c) :
    isBytes (a ++ c) := by
  intro x hx
  rcases List.mem_append.mp hx with h | h
  · exact ha x h
  · exact hc x h

theorem isBytes_replicate_zero (n : Nat) : isBytes (List.replicate n 0) := by
  intro x hx
  rw [List.mem_replicate] at hx
  omega

theorem word8_lt64 {l : List Nat} (h : isBytes l) :
    bytes_to_int (l.take 8) < 2 ^ 64 :=
  bytes_to_int_lt64 (isBytes_take h 8) (List.length_take_le _ _)

theorem chunks_nil (n : Nat) : chunks n [] = [] := by
  rw [chunks_eq]
  simp

theorem chunks_cons {n : Nat} (hn : 0 < n) {a : List Nat} (ha : a.length = n)
    (r : List Nat) : chunks n (a ++ r) = a :: chunks n r := by
  subst ha
  rw [chunks_eq]
  have hne : ¬(a ++ r = [] ∨ a.length = 0) := by
    push_neg
    refine ⟨?_, by omega⟩
    intro h
    have hlen := congrArg List.length h
    simp only [List.length_append, List.length_nil] at hlen
    omega
  rw [if_neg hne, List.take_left, List.drop_left]

theorem chunks_singleton {n : Nat} (hn : 0 < n) {a : List Nat}
    (ha : a.length = n) : chunks n a = [a] := by
  rw [← List.append_nil a, chunks_cons hn ha, chunks_nil]
  simp

/-! ### The 64-bit invariant (claim C8 groundwork) -/

theorem ascon_round_bounded {S : AsconState} (hS : S.bounded) {r : Nat}
    (hr : r < 16) : (ascon_round S r).bounded := by
  obtain ⟨h0, h1, h2, h3, h4⟩ := hS
  have hc : 0xf0 - r * 0x10 + r * 0x1 < 2 ^ 64 := by
    calc 0xf0 - r * 0x10 + r * 0x1 < 256 := by omega
      _ ≤ 2 ^ 64 := by norm_num
  have hff : (0xFFFFFFFFFFFFFFFF : Nat) < 2 ^ 64 := by norm_num
  simp only [ascon_round, AsconState.bounded]
  refine ⟨?_, ?_, ?_, ?_, ?_⟩ <;>
    · repeat
        first
        | assumption
        | apply xor_lt64
        | apply and_lt64
        | apply rotr_lt64
        | norm_num

theorem ascon_permutation_bounded {S : AsconState} (hS : S.bounded)
    {rounds : Nat} (h : rounds ≤ 12) :
    (ascon_permutation S rounds).bounded := by
  unfold ascon_permutation
  have main : ∀ (l : List Nat) (T : AsconState), (∀ r ∈ l, r < 16) →
      T.bounded → (l.foldl ascon_round T).bounded := by
    intro l
    induction l with
    | nil => intro T _ hT; exact hT
    | cons x xs ih =>
        intro T hmem hT
        exact ih _ (fun r hr => hmem r (List.mem_cons_of_mem _ hr))
          (ascon_round_bounded hT (hmem x (List.mem_cons_self _ _)))
  apply main _ _ _ hS
  intro r hr
  rw [List.mem_range'] at hr
  obtain ⟨i, hi, rfl⟩ := hr
  omega

theorem bytes_to_state_bounded {bs : List Nat} (h : isBytes bs) :
    (bytes_to_state bs).bounded := by
  refine ⟨?_, ?_, ?_, ?_, ?_⟩ <;>
    first
    | exact word8_lt64 h
    | exact word8_lt64 (isBytes_drop h _)

theorem chunks_ne_nil {rate : Nat} (hr : 0 < rate) {l : List Nat}
    (hl : l ≠ []) : chunks rate l ≠ [] := by
  rw [chunks_eq]
  have hne : ¬(l = [] ∨ rate = 0) := by push_neg; exact ⟨hl, by omega⟩
  rw [if_neg hne]
  simp

theorem chunks_flatten {rate : Nat} (hr : 0 < rate) (l : List Nat) :
    (chunks rate l).flatten = l := by
  rw [chunks_eq]
  by_cases h : l = [] ∨ rate = 0
  · rcases h with h | h
    · simp [h]
    · omega
  · rw [if_neg h]
    rw [List.flatten_cons, chunks_flatten hr (l.drop rate)]
    exact List.take_append_drop _ _
termination_by l.length
decreasing_by
  push_neg at h
  have : 0 < l.length := List.length_pos.mpr h.1
  simp only [List.length_drop]
  omega

theorem isBytes_of_mem_chunks {rate : Nat} (hr : 0 < rate) {l blk : List Nat}
    (hl : isBytes l) (h : blk ∈ chunks rate l) : isBytes blk := by
  intro x hx
  apply hl
  rw [← chunks_flatten hr l, List.mem_flatten]
  exact ⟨blk, h, hx⟩

theorem chunks_length_mul {rate : Nat} (hr : 0 < rate) :
    ∀ (m : Nat) (l : List Nat), l.length = m * rate →
    (chunks rate l).length = m := by
  intro m
  induction m with
  | zero =>
      intro l hl
      have : l = [] := List.eq_nil_of_length_eq_zero (by omega)
      subst this
      simp [chunks_nil]
  | succ p ih =>
      intro l hl
      have hmul : (p + 1) * rate = p * rate + rate := by ring
      have hlen : rate ≤ l.length := by omega
      conv_lhs => rw [← List.take_append_drop rate l]
      rw [chunks_cons hr (by rw [List.length_take]; omega) _]
      simp only [List.length_cons]
      rw [ih (l.drop rate) (by simp only [List.length_drop]; omega)]

theorem ascon_initialize_bounded {k rate a b : Nat} {key nonce : List Nat}
    (hk : k < 256) (hrate : rate * 8 < 256) (ha : a ≤ 12) (hb : b < 256)
    (hkey : isBytes key) (hnonce : isBytes nonce) :
    ( ascon_initialize k rate a b key nonce).bounded := by
  have hiv : isBytes (ascon_iv k rate a b key nonce) := by
    apply isBytes_append
    apply isBytes_append
    apply isBytes_append
    · intro x hx
      simp only [List.mem_cons, List.not_mem_nil, or_false] at hx
      rcases hx with rfl | rfl | rfl | rfl <;> omega
    · exact isBytes_replicate_zero _
    · exact hkey
    · exact hnonce
  have hzk : isBytes (zero_bytes (40 - key.length) ++ key) :=
    isBytes_append (isBytes_replicate_zero _) hkey
  have h1 := ascon_permutation_bounded (bytes_to_state_bounded hiv) ha
  have h2 := bytes_to_state_bounded hzk
  exact ⟨xor_lt64 h1.1 h2.1, xor_lt64 h1.2.1 h2.2.1, xor_lt64 h1.2.2.1 h2.2.2.1,
    xor_lt64 h1.2.2.2.1 h2.2.2.2.1, xor_lt64 h1.2.2.2.2 h2.2.2.2.2⟩

theorem absorb_foldl_bounded {b : Nat} (hb : b ≤ 12) :
    ∀ (bs : List (List Nat)) (T : AsconState), T.bounded →
    (∀ blk ∈ bs, isBytes blk) →
    (bs.foldl
      (fun T blk =>
        ascon_permutation { T with x0 := T.x0 ^^^ bytes_to_int (blk.take 8) } b)
      T).bounded := by
  intro bs
  induction bs with
  | nil => intro T hT _; exact hT
  | cons x xs ih =>
      intro T hT hmem
      apply ih
      · apply ascon_permutation_bounded _ hb
        exact ⟨xor_lt64 hT.1 (word8_lt64 (hmem x (List.mem_cons_self _ _))),
          hT.2.1, hT.2.2.1, hT.2.2.2.1, hT.2.2.2.2⟩
      · exact fun blk hblk => hmem blk (List.mem_cons_of_mem _ hblk)

theorem ascon_process_associated_data_bounded {S : AsconState} {b rate : Nat}
    {ad : List Nat} (hS : S.bounded) (hb : b ≤ 12) (hrate : 0 < rate)
    (had : isBytes ad) :
    (ascon_process_associated_data S b rate ad).bounded := by
  have hone : (1 : Nat) < 2 ^ 64 := by norm_num
  unfold ascon_process_associated_data
  by_cases hcase : 0 < ad.length
  · simp only [if_pos hcase]
    have hpadded : isBytes (ad ++ (0x80 :: List.replicate
        (rate - ad.length % rate - 1) 0)) := by
      apply isBytes_append had
      intro x hx
      simp only [List.mem_cons] at hx
      rcases hx with rfl | hx
      · omega
      · rw [List.mem_replicate] at hx; omega
    have hfold := absorb_foldl_bounded hb (chunks rate (ad ++ (0x80 ::
        List.replicate (rate - ad.length % rate - 1) 0))) S hS
      (fun blk hblk => isBytes_of_mem_chunks hrate hpadded hblk)
    exact ⟨hfold.1, hfold.2.1, hfold.2.2.1, hfold.2.2.2.1,
      xor_lt64 hfold.2.2.2.2 hone⟩
  · simp only [if_neg hcase]
    exact ⟨hS.1, hS.2.1, hS.2.2.1, hS.2.2.2.1, xor_lt64 hS.2.2.2.2 hone⟩

theorem ascon_process_plaintext_loop_bounded {b L : Nat} (hb : b ≤ 12) :
    ∀ (bs : List (List Nat)) (S : AsconState), S.bounded →
    (∀ blk ∈ bs, isBytes blk) →
    (ascon_process_plaintext_loop b L S bs).2.bounded := by
  intro bs
  induction bs with
  | nil => intro S hS _; exact hS
  | cons x xs ih =>
      intro S hS hmem
      cases xs with
      | nil =>
          exact ⟨xor_lt64 hS.1 (word8_lt64 (hmem x (List.mem_cons_self _ _))),
            hS.2.1, hS.2.2.1, hS.2.2.2.1, hS.2.2.2.2⟩
      | cons y ys =>
          apply ih
          · apply ascon_permutation_bounded _ hb
            exact ⟨xor_lt64 hS.1 (word8_lt64 (hmem x (List.mem_cons_self _ _))),
              hS.2.1, hS.2.2.1, hS.2.2.2.1, hS.2.2.2.2⟩
          · exact fun blk hblk => hmem blk (List.mem_cons_of_mem _ hblk)

theorem ascon_process_plaintext_bounded {S : AsconState} {b : Nat}
    {pt : List Nat} (hS : S.bounded) (hb : b ≤ 12) (hpt : isBytes pt) :
    (ascon_process_plaintext S b 8 pt).2.bounded := by
  unfold ascon_process_plaintext
  apply ascon_process_plaintext_loop_bounded hb _ _ hS
  intro blk hblk
  apply isBytes_of_mem_chunks (by norm_num) _ hblk
  apply isBytes_append hpt
  intro x hx
  simp only [List.mem_cons] at hx
  rcases hx with rfl | hx
  · omega
  · rw [List.mem_replicate] at hx; omega

theorem padding1_lt64 {L : Nat} (hL : L < 8) :
    (0x80 : Nat) <<< ((8 - L - 1) * 8) < 2 ^ 64 := by
  rw [Nat.shiftLeft_eq]
  have h128 : (0x80 : Nat) = 2 ^ 7 := by norm_num
  rw [h128, ← pow_add]
  apply Nat.pow_lt_pow_right (by norm_num)
  omega

theorem ascon_process_ciphertext_loop_bounded {b L : Nat} (hb : b ≤ 12)
    (hL : L < 8) :
    ∀ (bs : List (List Nat)) (S : AsconState), S.bounded →
    (∀ blk ∈ bs, isBytes blk) →
    (ascon_process_ciphertext_loop b 8 L S bs).2.bounded := by
  intro bs
  induction bs with
  | nil => intro S hS _; exact hS
  | cons x xs ih =>
      intro S hS hmem
      cases xs with
      | nil =>
          simp only [ascon_process_ciphertext_loop, if_pos rfl]
          refine ⟨?_, hS.2.1, hS.2.2.1, hS.2.2.2.1, hS.2.2.2.2⟩
          apply xor_lt64
          apply xor_lt64 (word8_lt64 (hmem x (List.mem_cons_self _ _)))
          · exact Nat.lt_of_le_of_lt Nat.and_le_left hS.1
          · exact padding1_lt64 hL
      | cons y ys =>
          simp only [ascon_process_ciphertext_loop, if_pos rfl]
          apply ih
          · apply ascon_permutation_bounded _ hb
            exact ⟨word8_lt64 (hmem x (List.mem_cons_self _ _)),
              hS.2.1, hS.2.2.1, hS.2.2.2.1, hS.2.2.2.2⟩
          · exact fun blk hblk => hmem blk (List.mem_cons_of_mem _ hblk)

theorem ascon_process_ciphertext_bounded {S : AsconState} {b : Nat}
    {ct : List Nat} (hS : S.bounded) (hb : b ≤ 12) (hct : isBytes ct) :
    (ascon_process_ciphertext S b 8 ct).2.bounded := by
  unfold ascon_process_ciphertext
  apply ascon_process_ciphertext_loop_bounded hb (Nat.mod_lt _ (by norm_num))
    _ _ hS
  intro blk hblk
  apply isBytes_of_mem_chunks (by norm_num) _ hblk
  exact isBytes_append hct (isBytes_replicate_zero _)

theorem xorWord_bounded {S : AsconState} (hS : S.bounded) (i : Nat) {v : Nat}
    (hv : v < 2 ^ 64) : (S.xorWord i v).bounded := by
  obtain ⟨h0, h1, h2, h3, h4⟩ := hS
  unfold AsconState.xorWord
  rcases i with _ | _ | _ | _ | _ | i <;>
    exact ⟨by first | exact xor_lt64 ‹_› hv | assumption,
      by first | exact xor_lt64 ‹_› hv | assumption,
      by first | exact xor_lt64 ‹_› hv | assumption,
      by first | exact xor_lt64 ‹_› hv | assumption,
      by first | exact xor_lt64 ‹_› hv | assumption⟩

theorem ascon_finalize_bounded {S : AsconState} {rate a : Nat}
    {key : List Nat} (hS : S.bounded) (ha : a ≤ 12)
    (hkl : key.length = 16 ∨ key.length = 20) (hkey : isBytes key) :
    ( ascon_finalize S rate a key).2.bounded := by
  have hk1 : bytes_to_int (key.take 8) < 2 ^ 64 := word8_lt64 hkey
  have hk2 : bytes_to_int ((key.drop 8).take 8) < 2 ^ 64 :=
    word8_lt64 (isBytes_drop hkey 8)
  have hk3 : bytes_to_int (key.drop 16) < 2 ^ 64 :=
    bytes_to_int_lt64 (isBytes_drop hkey 16) (by simp [List.length_drop]; omega)
  have hk4 : bytes_to_int ((key.drop (key.length - 16)).take 8) < 2 ^ 64 :=
    word8_lt64 (isBytes_drop hkey _)
  have hk5 : bytes_to_int (key.drop (key.length - 8)) < 2 ^ 64 :=
    bytes_to_int_lt64 (isBytes_drop hkey _) (by simp [List.length_drop]; omega)
  unfold ascon_finalize
  have hmid := ascon_permutation_bounded
    (xorWord_bounded (xorWord_bounded (xorWord_bounded hS (rate / 8) hk1)
      (rate / 8 + 1) hk2) (rate / 8 + 2) hk3) ha
  exact ⟨hmid.1, hmid.2.1, hmid.2.2.1, xor_lt64 hmid.2.2.2.1 hk4,
    xor_lt64 hmid.2.2.2.2 hk5⟩

/-! ### Output lengths -/

theorem ascon_process_plaintext_loop_length {b L : Nat} (hL : L ≤ 8) :
    ∀ (bs : List (List Nat)) (S : AsconState), bs ≠ [] →
    (ascon_process_plaintext_loop b L S bs).1.length = (bs.length - 1) * 8 + L := by
  intro bs
  induction bs with
  | nil => intro S h; exact absurd rfl h
  | cons x xs ih =>
      intro S _
      cases xs with
      | nil =>
          simp only [ascon_process_plaintext_loop, List.length_take,
            length_int_to_bytes, List.length_cons, List.length_nil]
          omega
      | cons y ys =>
          simp only [ascon_process_plaintext_loop, List.length_append,
            length_int_to_bytes, List.length_cons]
          rw [ih _ (by simp)]
          simp only [List.length_cons]
          omega

theorem ascon_process_ciphertext_loop_length {b L : Nat} (hL : L ≤ 8) :
    ∀ (bs : List (List Nat)) (S : AsconState), bs ≠ [] →
    (ascon_process_ciphertext_loop b 8 L S bs).1.length
      = (bs.length - 1) * 8 + L := by
  intro bs
  induction bs with
  | nil => intro S h; exact absurd rfl h
  | cons x xs ih =>
      intro S _
      cases xs with
      | nil =>
          simp only [ascon_process_ciphertext_loop, eq_self_iff_true, if_true,
            List.length_take, length_int_to_bytes, List.length_cons,
            List.length_nil]
          omega
      | cons y ys =>
          simp only [ascon_process_ciphertext_loop, eq_self_iff_true, if_true,
            List.length_append, length_int_to_bytes, List.length_cons]
          rw [ih _ (by simp)]
          simp only [List.length_cons]
          omega

theorem ascon_process_plaintext_length (S : AsconState) (b : Nat)
    (pt : List Nat) :
    (ascon_process_plaintext S b 8 pt).1.length = pt.length := by
  unfold ascon_process_plaintext
  have hL : pt.length % 8 < 8 := Nat.mod_lt _ (by norm_num)
  have hplen : (pt ++ 0x80 :: List.replicate (8 - pt.length % 8 - 1) 0x00).length
      = (pt.length / 8 + 1) * 8 := by
    simp only [List.length_append, List.length_cons, List.length_replicate]
    omega
  have hcount := chunks_length_mul (by norm_num : (0:Nat) < 8)
    (pt.length / 8 + 1) _ hplen
  have hne : (pt ++ 0x80 :: List.replicate (8 - pt.length % 8 - 1) 0x00) ≠ [] := by
    intro h
    rw [h] at hplen
    simp at hplen
  rw [ascon_process_plaintext_loop_length (by omega) _ _
    (chunks_ne_nil (by norm_num) hne), hcount]
  omega

theorem ascon_process_ciphertext_length (S : AsconState) (b : Nat)
    (ct : List Nat) :
    (ascon_process_ciphertext S b 8 ct).1.length = ct.length := by
  unfold ascon_process_ciphertext
  have hL : ct.length % 8 < 8 := Nat.mod_lt _ (by norm_num)
  have hplen : (ct ++ zero_bytes (8 - ct.length % 8)).length
      = (ct.length / 8 + 1) * 8 := by
    simp only [zero_bytes, List.length_append, List.length_replicate]
    omega
  have hcount := chunks_length_mul (by norm_num : (0:Nat) < 8)
    (ct.length / 8 + 1) _ hplen
  have hne : (ct ++ zero_bytes (8 - ct.length % 8)) ≠ [] := by
    intro h
    rw [h] at hplen
    simp at hplen
  rw [ascon_process_ciphertext_loop_length (by omega) _ _
    (chunks_ne_nil (by norm_num) hne), hcount]
  omega

theorem ascon_finalize_tag_length (S : AsconState) (rate a : Nat)
    (key : List Nat) : ( ascon_finalize S rate a key).1.length = 16 := by
  unfold ascon_finalize
  simp [length_int_to_bytes]

/-! ### The decrypt loop inverts the encrypt loop -/

theorem goodBlock_low {blk : List Nat} {L : Nat} (hL : L < 8)
    (hdrop : blk.drop L = 0x80 :: List.replicate (8 - L - 1) 0) :
    bytes_to_int blk % 2 ^ ((8 - L) * 8) = 0x80 <<< ((8 - L - 1) * 8) := by
  have hsplit : blk = blk.take L ++ (0x80 :: List.replicate (8 - L - 1) 0) := by
    rw [← hdrop]
    exact (List.take_append_drop L blk).symm
  conv_lhs => rw [hsplit]
  rw [bytes_to_int_append]
  have hpadval : bytes_to_int (0x80 :: List.replicate (8 - L - 1) 0)
      = 0x80 <<< ((8 - L - 1) * 8) := by
    simp only [bytes_to_int, bytes_to_int_replicate_zero, List.length_replicate,
      Nat.add_zero]
    congr 1
    omega
  rw [hpadval]
  simp only [List.length_cons, List.length_replicate]
  have h1 : 8 * (8 - L - 1 + 1) = (8 - L) * 8 := by omega
  rw [h1]
  conv_lhs => rw [Nat.shiftLeft_eq (bytes_to_int (List.take L blk))]
  rw [Nat.add_comm, Nat.add_mul_mod_self_right]
  apply Nat.mod_eq_of_lt
  rw [Nat.shiftLeft_eq]
  have h128 : (0x80 : Nat) = 2 ^ 7 := by norm_num
  rw [h128, ← pow_add]
  apply Nat.pow_lt_pow_right (by norm_num)
  omega

theorem last_block_identity {X P L : Nat} (hX : X < 2 ^ 64) (hP : P < 2 ^ 64)
    (hL : L < 8)
    (hPlow : P % 2 ^ ((8 - L) * 8) = 0x80 <<< ((8 - L - 1) * 8)) :
    (bytes_to_int ((int_to_bytes (X ^^^ P) 8).take L ++ zero_bytes (8 - L))
        ^^^ (X &&& (0xFFFFFFFFFFFFFFFF >>> (L * 8)))
        ^^^ (0x80 <<< ((8 - L - 1) * 8)) = X ^^^ P)
    ∧ (int_to_bytes (bytes_to_int ((int_to_bytes (X ^^^ P) 8).take L ++
        zero_bytes (8 - L)) ^^^ X) 8).take L
      = int_to_bytes (P >>> ((8 - L) * 8)) L := by
  have hn64 : X ^^^ P < 2 ^ 64 := xor_lt64 hX hP
  have hmask : (0xFFFFFFFFFFFFFFFF : Nat) >>> (L * 8) = 2 ^ ((8 - L) * 8) - 1 := by
    have hff : (0xFFFFFFFFFFFFFFFF : Nat) = 2 ^ 64 - 1 := by norm_num
    have he : 64 - L * 8 = (8 - L) * 8 := by omega
    rw [hff, mask_shiftRight (by omega), he]
  have htake : (int_to_bytes (X ^^^ P) 8).take L
      = int_to_bytes ((X ^^^ P) >>> ((8 - L) * 8)) L :=
    take_int_to_bytes _ (by omega)
  have hshift : (X ^^^ P) >>> ((8 - L) * 8) < 2 ^ (8 * L) := by
    rw [Nat.shiftRight_eq_div_pow]
    apply Nat.div_lt_of_lt_mul
    have he : (8 - L) * 8 + 8 * L = 64 := by omega
    calc X ^^^ P < 2 ^ 64 := hn64
      _ = 2 ^ ((8 - L) * 8) * 2 ^ (8 * L) := by rw [← pow_add, he]
  have hCi : bytes_to_int ((int_to_bytes (X ^^^ P) 8).take L ++
      zero_bytes (8 - L)) = ((X ^^^ P) >>> ((8 - L) * 8)) <<< ((8 - L) * 8) := by
    rw [htake, zero_bytes, bytes_to_int_append, bytes_to_int_replicate_zero,
      List.length_replicate, bytes_to_int_int_to_bytes hshift, Nat.add_zero,
      Nat.mul_comm 8 (8 - L)]
  constructor
  · rw [hCi, hmask, and_mask_mod]
    have hlow : X % 2 ^ ((8 - L) * 8) ^^^ 0x80 <<< ((8 - L - 1) * 8)
        = (X ^^^ P) % 2 ^ ((8 - L) * 8) := by
      rw [← hPlow, ← mod_two_pow_xor]
    rw [Nat.xor_assoc, hlow, shiftRight_shiftLeft_xor_mod]
  · rw [hCi]
    rw [take_int_to_bytes _ (by omega : L ≤ 8)]
    congr 1
    rw [shiftRight_xor_distrib, shiftLeft_shiftRight_cancel,
      ← shiftRight_xor_distrib, xor_xor_cancel_right]

theorem process_loop_inversion {b L : Nat} (hb : b ≤ 12) (hL : L < 8) :
    ∀ (bs : List (List Nat)) (S : AsconState), S.bounded → goodBlocks L bs →
    ascon_process_ciphertext_loop b 8 L S
      (chunks 8 ((ascon_process_plaintext_loop b L S bs).1 ++ zero_bytes (8 - L)))
      = (lastTrunc L bs, (ascon_process_plaintext_loop b L S bs).2) := by
  intro bs
  induction bs with
  | nil =>
      intro S _ hg
      exact absurd hg (by simp [goodBlocks])
  | cons blk rest ih =>
      intro S hS hg
      cases rest with
      | nil =>
          obtain ⟨hlen, hbytes, hdrop⟩ := hg
          have htk : blk.take 8 = blk := List.take_of_length_le (by omega)
          have hP64 : bytes_to_int blk < 2 ^ 64 :=
            bytes_to_int_lt64 hbytes (by omega)
          have hid := last_block_identity hS.1 hP64 hL
            (goodBlock_low hL hdrop)
          simp only [ascon_process_plaintext_loop, lastTrunc, htk]
          have hcb : ((int_to_bytes (S.x0 ^^^ bytes_to_int blk) 8).take L ++
              zero_bytes (8 - L)).length = 8 := by
            simp only [List.length_append, List.length_take,
              length_int_to_bytes, zero_bytes, List.length_replicate]
            omega
          rw [chunks_singleton (by norm_num) hcb]
          simp only [ascon_process_ciphertext_loop, eq_self_iff_true, if_true]
          have htk2 : ((int_to_bytes (S.x0 ^^^ bytes_to_int blk) 8).take L ++
              zero_bytes (8 - L)).take 8
              = (int_to_bytes (S.x0 ^^^ bytes_to_int blk) 8).take L ++
                zero_bytes (8 - L) := List.take_of_length_le (by omega)
          rw [htk2]
          have hblk8 : int_to_bytes (bytes_to_int blk) 8 = blk := by
            have := int_to_bytes_bytes_to_int hbytes
            rw [hlen] at this
            exact this
          have hrec : int_to_bytes (bytes_to_int blk >>> ((8 - L) * 8)) L
              = blk.take L := by
            rw [← take_int_to_bytes _ (by omega : L ≤ 8), hblk8]
          refine Prod.ext ?_ ?_
          · simp only
            rw [hid.2, hrec]
          · simp only
            rw [hid.1]
      | cons blk2 rest2 =>
          obtain ⟨hlen, hbytes, hgrest⟩ := hg
          have htk : blk.take 8 = blk := List.take_of_length_le (by omega)
          have hP64 : bytes_to_int blk < 2 ^ 64 :=
            bytes_to_int_lt64 hbytes (by omega)
          have hs064 : S.x0 ^^^ bytes_to_int blk < 2 ^ 64 := xor_lt64 hS.1 hP64
          simp only [ascon_process_plaintext_loop, lastTrunc, htk]
          rw [List.append_assoc]
          rw [chunks_cons (by norm_num) (length_int_to_bytes _ _) _]
          have hupd : ({ S with x0 := S.x0 ^^^ bytes_to_int blk } :
              AsconState).bounded :=
            ⟨hs064, hS.2.1, hS.2.2.1, hS.2.2.2.1, hS.2.2.2.2⟩
          have hS' : (ascon_permutation
              { S with x0 := S.x0 ^^^ bytes_to_int blk } b).bounded :=
            ascon_permutation_bounded hupd hb
          have hne2 : ((ascon_process_plaintext_loop b L
              (ascon_permutation { S with x0 := S.x0 ^^^ bytes_to_int blk } b)
              (blk2 :: rest2)).1 ++ zero_bytes (8 - L)) ≠ [] := by
            intro h
            have := congrArg List.length h
            simp only [List.length_append, zero_bytes, List.length_replicate,
              List.length_nil] at this
            omega
          obtain ⟨c2, crest, hch⟩ := List.exists_cons_of_ne_nil
            (chunks_ne_nil (by norm_num : (0:Nat) < 8) hne2)
          rw [hch]
          simp only [ascon_process_ciphertext_loop, eq_self_iff_true, if_true]
          have htk3 : (int_to_bytes (S.x0 ^^^ bytes_to_int blk) 8).take 8
              = int_to_bytes (S.x0 ^^^ bytes_to_int blk) 8 :=
            List.take_of_length_le (by rw [length_int_to_bytes])
          rw [htk3, bytes_to_int_int_to_bytes hs064]
          have hpt : int_to_bytes (S.x0 ^^^ (S.x0 ^^^ bytes_to_int blk)) 8
              = blk := by
            rw [xor_cancel_left]
            have := int_to_bytes_bytes_to_int hbytes
            rw [hlen] at this
            exact this
          rw [hpt, ← hch, ih _ hS' hgrest]

theorem goodBlocks_chunks (pt : List Nat) (hpt : isBytes pt) :
    goodBlocks (pt.length % 8)
      (chunks 8 (pt ++ 0x80 :: List.replicate (8 - pt.length % 8 - 1) 0)) := by
  have hpad : isBytes (pt ++ 0x80 :: List.replicate (8 - pt.length % 8 - 1) 0) := by
    apply isBytes_append hpt
    intro x hx
    simp only [List.mem_cons] at hx
    rcases hx with rfl | hx
    · omega
    · rw [List.mem_replicate] at hx; omega
  by_cases h : pt.length < 8
  · have hmod : pt.length % 8 = pt.length := Nat.mod_eq_of_lt h
    have hlen8 : (pt ++ 0x80 :: List.replicate (8 - pt.length % 8 - 1) 0).length
        = 8 := by
      simp only [List.length_append, List.length_cons, List.length_replicate]
      omega
    rw [chunks_singleton (by norm_num) hlen8]
    refine ⟨hlen8, hpad, ?_⟩
    calc (pt ++ 0x80 :: List.replicate (8 - pt.length % 8 - 1) 0).drop
          (pt.length % 8)
        = (pt ++ 0x80 :: List.replicate (8 - pt.length % 8 - 1) 0).drop
          pt.length := by rw [hmod]
      _ = 0x80 :: List.replicate (8 - pt.length % 8 - 1) 0 := List.drop_left _ _
  · have hge : 8 ≤ pt.length := by omega
    have hmod : (pt.drop 8).length % 8 = pt.length % 8 := by
      simp only [List.length_drop]
      omega
    have hrec := goodBlocks_chunks (pt.drop 8) (isBytes_drop hpt 8)
    rw [hmod] at hrec
    have hsplit : pt ++ 0x80 :: List.replicate (8 - pt.length % 8 - 1) 0
        = pt.take 8 ++ (pt.drop 8 ++ 0x80 ::
          List.replicate (8 - pt.length % 8 - 1) 0) := by
      rw [← List.append_assoc, List.take_append_drop]
    rw [hsplit, chunks_cons (by norm_num) (by rw [List.length_take]; omega) _]
    have hne2 : (pt.drop 8 ++ 0x80 ::
        List.replicate (8 - pt.length % 8 - 1) 0) ≠ [] := by
      intro hemp
      have := congrArg List.length hemp
      simp only [List.length_append, List.length_cons,
        List.length_replicate, List.length_nil] at this
      omega
    obtain ⟨c2, crest, hch⟩ := List.exists_cons_of_ne_nil
      (chunks_ne_nil (by norm_num : (0:Nat) < 8) hne2)
    rw [hch]
    rw [hch] at hrec
    exact ⟨by rw [List.length_take]; omega, isBytes_take hpt 8, hrec⟩
termination_by pt.length
decreasing_by
  simp only [List.length_drop]
  omega

theorem lastTrunc_chunks (pt : List Nat) :
    lastTrunc (pt.length % 8)
      (chunks 8 (pt ++ 0x80 :: List.replicate (8 - pt.length % 8 - 1) 0)) = pt := by
  by_cases h : pt.length < 8
  · have hmod : pt.length % 8 = pt.length := Nat.mod_eq_of_lt h
    have hlen8 : (pt ++ 0x80 :: List.replicate (8 - pt.length % 8 - 1) 0).length
        = 8 := by
      simp only [List.length_append, List.length_cons, List.length_replicate]
      omega
    rw [chunks_singleton (by norm_num) hlen8]
    simp only [lastTrunc]
    rw [hmod]
    exact List.take_left _ _
  · have hge : 8 ≤ pt.length := by omega
    have hmod : (pt.drop 8).length % 8 = pt.length % 8 := by
      simp only [List.length_drop]
      omega
    have hrec := lastTrunc_chunks (pt.drop 8)
    rw [hmod] at hrec
    have hsplit : pt ++ 0x80 :: List.replicate (8 - pt.length % 8 - 1) 0
        = pt.take 8 ++ (pt.drop 8 ++ 0x80 ::
          List.replicate (8 - pt.length % 8 - 1) 0) := by
      rw [← List.append_assoc, List.take_append_drop]
    rw [hsplit, chunks_cons (by norm_num) (by rw [List.length_take]; omega) _]
    have hne2 : (pt.drop 8 ++ 0x80 ::
        List.replicate (8 - pt.length % 8 - 1) 0) ≠ [] := by
      intro hemp
      have := congrArg List.length hemp
      simp only [List.length_append, List.length_cons,
        List.length_replicate, List.length_nil] at this
      omega
    obtain ⟨c2, crest, hch⟩ := List.exists_cons_of_ne_nil
      (chunks_ne_nil (by norm_num : (0:Nat) < 8) hne2)
    rw [hch]
    rw [hch] at hrec
    simp only [lastTrunc]
    rw [hrec, List.take_append_drop]
termination_by pt.length
decreasing_by
  simp only [List.length_drop]
  omega

theorem process_inversion_main {S : AsconState} {b : Nat} {pt : List Nat}
    (hS : S.bounded) (hb : b ≤ 12) (hpt : isBytes pt) :
    ascon_process_ciphertext S b 8 (ascon_process_plaintext S b 8 pt).1
      = (pt, (ascon_process_plaintext S b 8 pt).2) := by
  have hctlen : (ascon_process_plaintext S b 8 pt).1.length = pt.length :=
    ascon_process_plaintext_length S b pt
  have hL : pt.length % 8 < 8 := Nat.mod_lt _ (by norm_num)
  show ascon_process_ciphertext_loop b 8
      ((ascon_process_plaintext S b 8 pt).1.length % 8) S
      (chunks 8 ((ascon_process_plaintext S b 8 pt).1 ++
        zero_bytes (8 - (ascon_process_plaintext S b 8 pt).1.length % 8)))
    = (pt, (ascon_process_plaintext S b 8 pt).2)
  rw [hctlen]
  have hinv := process_loop_inversion hb hL
    (chunks 8 (pt ++ 0x80 :: List.replicate (8 - pt.length % 8 - 1) 0)) S hS
    (goodBlocks_chunks pt hpt)
  rw [show ascon_process_plaintext S b 8 pt
      = ascon_process_plaintext_loop b (pt.length % 8) S
        (chunks 8 (pt ++ 0x80 :: List.replicate (8 - pt.length % 8 - 1) 0))
      from rfl]
  rw [hinv, lastTrunc_chunks]

/-! ### Canonical forms of the two public operations -/

theorem ascon_encrypt_eq (key ad nonce pt : List Nat)
    (hk : key.length = 16 ∨ key.length = 20) :
    ascon_encrypt key ad nonce pt
      = some ((ascon_process_plaintext (ascon_process_associated_data
          ( ascon_initialize 128 8 12 6 key nonce) 6 8 ad) 6 8 pt).1
        ++ ( ascon_finalize (ascon_process_plaintext
          (ascon_process_associated_data ( ascon_initialize 128 8 12 6 key nonce)
          6 8 ad) 6 8 pt).2 8 12 key).1) := by
  unfold ascon_encrypt ascon_finalize_checked
  dsimp only
  rw [if_pos hk]
  rfl

theorem ascon_encrypt_none (key ad nonce pt : List Nat)
    (hk : ¬(key.length = 16 ∨ key.length = 20)) :
    ascon_encrypt key ad nonce pt = none := by
  unfold ascon_encrypt ascon_finalize_checked
  dsimp only
  rw [if_neg hk]
  rfl

theorem ascon_decrypt_eq (key ad nonce input : List Nat)
    (h16 : 16 ≤ input.length) (hk : key.length = 16 ∨ key.length = 20) :
    ascon_decrypt key ad nonce input =
      (if ( ascon_finalize (ascon_process_ciphertext
            (ascon_process_associated_data
              ( ascon_initialize (key.length * 8) 8 12 6 key nonce) 6 8 ad)
            6 8 (input.take (input.length - 16))).2 8 12 key).1
          = input.drop (input.length - 16)
        then some (some (ascon_process_ciphertext
            (ascon_process_associated_data
              ( ascon_initialize (key.length * 8) 8 12 6 key nonce) 6 8 ad)
            6 8 (input.take (input.length - 16))).1)
        else some none) := by
  unfold ascon_decrypt ascon_finalize_checked
  rw [if_neg (by omega : ¬ input.length < 16)]
  dsimp only
  rw [if_pos hk]

theorem ascon_decrypt_none_short (key ad nonce input : List Nat)
    (h : input.length < 16) : ascon_decrypt key ad nonce input = none := by
  unfold ascon_decrypt
  rw [if_pos h]

theorem ascon_decrypt_none_badkey (key ad nonce input : List Nat)
    (hk : ¬(key.length = 16 ∨ key.length = 20)) :
    ascon_decrypt key ad nonce input = none := by
  unfold ascon_decrypt ascon_finalize_checked
  by_cases h16 : input.length < 16
  · rw [if_pos h16]
  · rw [if_neg h16]
    dsimp only
    rw [if_neg hk]

/-! ### The claims -/

/-- C7: for every state (and any round count and rate), processing empty
associated data changes only word 4 of the state, replacing `S[4]` by
`S[4] XOR 1`, and leaves words 0 through 3 unchanged: no absorption block
runs, but the domain-separation flip still happens. -/
theorem c7_empty_ad_domain_separation (S : AsconState) (b rate : Nat) :
    ascon_process_associated_data S b rate []
      = ⟨S.x0, S.x1, S.x2, S.x3, S.x4 ^^^ 1⟩ := rfl

/-- C6: for every `n ≤ 12` and every state, `ascon_permutation` performs the
final `n` rounds of the fixed 12-round schedule, i.e. rounds indexed
`r = 12-n` through `11`, each round XORing the constant
`0xf0 - r*0x10 + r*0x1` into word 2 before the substitution and linear
diffusion layers (the spec-side layer definitions); calling it with
`rounds > 12` trips the assertion. -/
theorem c6_round_schedule (S : AsconState) (n : Nat) :
    (n ≤ 12 → ascon_permutation_checked S n
      = some ((List.range' (12 - n) n).foldl
          (fun T r => linear_diffusion_layer (substitution_layer
            (round_constant_addition r T))) S))
    ∧ (12 < n → ascon_permutation_checked S n = none) := by
  constructor
  · intro h
    unfold ascon_permutation_checked
    rw [if_pos h]
    unfold ascon_permutation
    have hfun : ascon_round = (fun T r => linear_diffusion_layer
        (substitution_layer (round_constant_addition r T))) := by
      funext T r
      rfl
    rw [hfun]
  · intro h
    unfold ascon_permutation_checked
    rw [if_neg (by omega)]

theorem c6_round_schedule_witness :
    (ascon_permutation_checked ⟨1, 2, 3, 4, 5⟩ 6
      = some ((List.range' 6 6).foldl
          (fun T r => linear_diffusion_layer (substitution_layer
            (round_constant_addition r T))) ⟨1, 2, 3, 4, 5⟩))
    ∧ ascon_permutation_checked ⟨1, 2, 3, 4, 5⟩ 13 = none :=
  ⟨(c6_round_schedule ⟨1, 2, 3, 4, 5⟩ 6).1 (by decide),
   (c6_round_schedule ⟨1, 2, 3, 4, 5⟩ 13).2 (by decide)⟩

/-- C2: for every valid-length key, associated data, nonce and input of length
at least 16, `ascon_decrypt` returns the recovered plaintext exactly when the
recomputed tag equals the trailing 16 bytes of the input; on any mismatch it
returns the failure value `None` (modelled `some none`), so no byte of the
tentative plaintext is observable in the result. -/
theorem c2_tag_gate (key ad nonce input : List Nat) (h16 : 16 ≤ input.length)
    (hk : key.length = 16 ∨ key.length = 20) :
    (( ascon_finalize (ascon_process_ciphertext (ascon_process_associated_data
        ( ascon_initialize (key.length * 8) 8 12 6 key nonce) 6 8 ad) 6 8
        (input.take (input.length - 16))).2 8 12 key).1
        = input.drop (input.length - 16) →
      ascon_decrypt key ad nonce input
        = some (some (ascon_process_ciphertext (ascon_process_associated_data
            ( ascon_initialize (key.length * 8) 8 12 6 key nonce) 6 8 ad) 6 8
            (input.take (input.length - 16))).1))
    ∧ (( ascon_finalize (ascon_process_ciphertext (ascon_process_associated_data
        ( ascon_initialize (key.length * 8) 8 12 6 key nonce) 6 8 ad) 6 8
        (input.take (input.length - 16))).2 8 12 key).1
        ≠ input.drop (input.length - 16) →
      ascon_decrypt key ad nonce input = some none) := by
  rw [ascon_decrypt_eq key ad nonce input h16 hk]
  constructor
  · intro h
    rw [if_pos h]
  · intro h
    rw [if_neg h]

theorem c2_tag_gate_witness :
    ascon_decrypt (List.replicate 16 0) [] (List.replicate 16 0)
      (List.replicate 16 0) = some none :=
  (c2_tag_gate (List.replicate 16 0) [] (List.replicate 16 0)
    (List.replicate 16 0) (by decide) (by decide)).2 (by decide)

/-- C4 as stated is false for the nonce: no length check is performed on the
nonce anywhere in the code, so sealing with an empty (0-byte) nonce returns a
normal result instead of aborting. -/
theorem c4_counterexample :
    ascon_encrypt (List.replicate 16 0) [] [] [] ≠ none := by decide

/-- C4 amended: a key whose length is not 16 or 20 makes both `ascon_encrypt`
and `ascon_decrypt` abort (the assertion inside finalization), and an open
input shorter than 16 bytes makes `ascon_decrypt` abort; the nonce length is
never checked. -/
theorem c4_fail_fast (key ad nonce input pt : List Nat) :
    (¬(key.length = 16 ∨ key.length = 20) →
      ascon_encrypt key ad nonce pt = none
      ∧ ascon_decrypt key ad nonce input = none)
    ∧ (input.length < 16 → ascon_decrypt key ad nonce input = none) := by
  constructor
  · intro hk
    exact ⟨ascon_encrypt_none key ad nonce pt hk,
      ascon_decrypt_none_badkey key ad nonce input hk⟩
  · exact ascon_decrypt_none_short key ad nonce input

theorem c4_fail_fast_witness :
    ascon_encrypt (List.replicate 5 0) [] (List.replicate 16 0) [] = none
    ∧ ascon_decrypt (List.replicate 5 0) [] (List.replicate 16 0)
      (List.replicate 16 0) = none
    ∧ ascon_decrypt (List.replicate 16 0) [] (List.replicate 16 0) [0] = none :=
  ⟨((c4_fail_fast (List.replicate 5 0) [] (List.replicate 16 0)
      (List.replicate 16 0) []).1 (by decide)).1,
   ((c4_fail_fast (List.replicate 5 0) [] (List.replicate 16 0)
      (List.replicate 16 0) []).1 (by decide)).2,
   (c4_fail_fast (List.replicate 16 0) [] (List.replicate 16 0) [0] []).2
     (by decide)⟩

/-- C3: whenever sealing produces an output, the output has length exactly
`len(plaintext) + 16`; the ciphertext part produced by
`ascon_process_plaintext` at rate 8 has exactly the plaintext's length and
the finalization tag contributes exactly 16 bytes. -/
theorem c3_seal_length :
    (∀ key ad nonce pt out : List Nat,
      ascon_encrypt key ad nonce pt = some out → out.length = pt.length + 16)
    ∧ (∀ (S : AsconState) (b : Nat) (pt : List Nat),
      (ascon_process_plaintext S b 8 pt).1.length = pt.length)
    ∧ (∀ (S : AsconState) (rate a : Nat) (key : List Nat),
      ( ascon_finalize S rate a key).1.length = 16) := by
  refine ⟨?_, ascon_process_plaintext_length, ascon_finalize_tag_length⟩
  intro key ad nonce pt out h
  by_cases hk : key.length = 16 ∨ key.length = 20
  · rw [ascon_encrypt_eq key ad nonce pt hk] at h
    have hout := Option.some.inj h
    rw [← hout, List.length_append, ascon_process_plaintext_length,
      ascon_finalize_tag_length]
  · rw [ascon_encrypt_none key ad nonce pt hk] at h
    exact absurd h (by simp)

theorem c3_seal_length_witness :
    ([185, 221, 247, 0, 104, 7, 0, 119, 182, 103, 66, 105, 33, 221, 171, 25,
      92, 87, 188] : List Nat).length = ([1, 2, 3] : List Nat).length + 16 :=
  c3_seal_length.1 (List.replicate 16 0) [] (List.replicate 16 0) [1, 2, 3] _
    (by decide)

/-- C10: whenever `ascon_decrypt` returns a recovered plaintext rather than a
failure, that plaintext has length exactly `len(input) - 16`. -/
theorem c10_open_length (key ad nonce input p : List Nat)
    (h : ascon_decrypt key ad nonce input = some (some p)) :
    p.length = input.length - 16 := by
  by_cases h16 : input.length < 16
  · rw [ascon_decrypt_none_short key ad nonce input h16] at h
    exact absurd h (by simp)
  · by_cases hk : key.length = 16 ∨ key.length = 20
    · rw [ascon_decrypt_eq key ad nonce input (by omega) hk] at h
      split at h
      · have hp := Option.some.inj (Option.some.inj h)
        rw [← hp, ascon_process_ciphertext_length, List.length_take]
        omega
      · exact absurd h (by simp)
    · rw [ascon_decrypt_none_badkey key ad nonce input hk] at h
      exact absurd h (by simp)

theorem c10_open_length_witness :
    ([1, 2, 3] : List Nat).length
      = ([185, 221, 247, 0, 104, 7, 0, 119, 182, 103, 66, 105, 33, 221, 171,
          25, 92, 87, 188] : List Nat).length - 16 :=
  c10_open_length (List.replicate 16 0) [] (List.replicate 16 0)
    [185, 221, 247, 0, 104, 7, 0, 119, 182, 103, 66, 105, 33, 221, 171, 25,
      92, 87, 188] [1, 2, 3] (by decide)

/-- C8: every operation preserves the unsigned 64-bit bound on the five state
words, at the parameters the program uses (rate 8, 12 full rounds, at most 12
intermediate rounds) and for byte-valued inputs (finalization additionally
under its asserted key lengths). -/
theorem c8_bounded (S : AsconState) (hS : S.bounded) :
    (∀ n, n ≤ 12 → (ascon_permutation S n).bounded)
    ∧ (∀ (k : Nat) (key nonce : List Nat), k < 256 → isBytes key →
        isBytes nonce → ( ascon_initialize k 8 12 6 key nonce).bounded)
    ∧ (∀ (b : Nat) (ad : List Nat), b ≤ 12 → isBytes ad →
        (ascon_process_associated_data S b 8 ad).bounded)
    ∧ (∀ (b : Nat) (pt : List Nat), b ≤ 12 → isBytes pt →
        (ascon_process_plaintext S b 8 pt).2.bounded)
    ∧ (∀ (b : Nat) (ct : List Nat), b ≤ 12 → isBytes ct →
        (ascon_process_ciphertext S b 8 ct).2.bounded)
    ∧ (∀ key : List Nat, (key.length = 16 ∨ key.length = 20) → isBytes key →
        ( ascon_finalize S 8 12 key).2.bounded) := by
  refine ⟨?_, ?_, ?_, ?_, ?_, ?_⟩
  · intro n hn
    exact ascon_permutation_bounded hS hn
  · intro k key nonce hk hkey hnonce
    exact ascon_initialize_bounded hk (by norm_num) (by norm_num) (by norm_num)
      hkey hnonce
  · intro b ad hb had
    exact ascon_process_associated_data_bounded hS hb (by norm_num) had
  · intro b pt hb hpt
    exact ascon_process_plaintext_bounded hS hb hpt
  · intro b ct hb hct
    exact ascon_process_ciphertext_bounded hS hb hct
  · intro key hkl hkey
    exact ascon_finalize_bounded hS (by norm_num) hkl hkey

theorem c8_bounded_witness :
    (ascon_permutation ⟨0, 0, 0, 0, 0⟩ 12).bounded
    ∧ ( ascon_initialize 128 8 12 6 (List.replicate 16 0)
        (List.replicate 16 0)).bounded
    ∧ (ascon_process_associated_data ⟨0, 0, 0, 0, 0⟩ 6 8 [1, 2, 3]).bounded
    ∧ (ascon_process_plaintext ⟨0, 0, 0, 0, 0⟩ 6 8 [4, 5]).2.bounded
    ∧ (ascon_process_ciphertext ⟨0, 0, 0, 0, 0⟩ 6 8 [6]).2.bounded
    ∧ ( ascon_finalize ⟨0, 0, 0, 0, 0⟩ 8 12 (List.replicate 16 7)).2.bounded :=
  ⟨(c8_bounded ⟨0, 0, 0, 0, 0⟩ (by decide)).1 12 (by decide),
   (c8_bounded ⟨0, 0, 0, 0, 0⟩ (by decide)).2.1 128 _ _ (by decide) (by decide)
     (by decide),
   (c8_bounded ⟨0, 0, 0, 0, 0⟩ (by decide)).2.2.1 6 _ (by decide) (by decide),
   (c8_bounded ⟨0, 0, 0, 0, 0⟩ (by decide)).2.2.2.1 6 _ (by decide) (by decide),
   (c8_bounded ⟨0, 0, 0, 0, 0⟩ (by decide)).2.2.2.2.1 6 _ (by decide)
     (by decide),
   (c8_bounded ⟨0, 0, 0, 0, 0⟩ (by decide)).2.2.2.2.2 _ (by decide) (by decide)⟩

/-- C9: `ascon_encrypt` builds the IV with the key-size header byte fixed at
128 while `ascon_decrypt` builds it from `8 * len(key)` (see the definitions
of the two functions); hence for every 20-byte key and any nonce the two IVs
differ, and so does word 0 of the state loaded from them. -/
theorem c9_iv_key_size_header (key nonce : List Nat) (hk : key.length = 20)
    (hkey : isBytes key) :
    ascon_iv 128 8 12 6 key nonce ≠ ascon_iv (key.length * 8) 8 12 6 key nonce
    ∧ (bytes_to_state (ascon_iv 128 8 12 6 key nonce)).x0
      ≠ (bytes_to_state (ascon_iv (key.length * 8) 8 12 6 key nonce)).x0 := by
  have hiv : ∀ c : Nat, (ascon_iv c 8 12 6 key nonce).take 8
      = c :: ([64, 12, 6] ++ key.take 4) := by
    intro c
    unfold ascon_iv
    rw [hk]
    norm_num
    exact Or.inr (by omega)
  have hx : ∀ c : Nat, (bytes_to_state (ascon_iv c 8 12 6 key nonce)).x0
      = c <<< (8 * ([64, 12, 6] ++ key.take 4).length)
        + bytes_to_int ([64, 12, 6] ++ key.take 4) := by
    intro c
    show bytes_to_int ((ascon_iv c 8 12 6 key nonce).take 8) = _
    rw [hiv c]
    rfl
  have h4 : (key.take 4).length = 4 := by rw [List.length_take]; omega
  have hlen7 : ([64, 12, 6] ++ key.take 4).length = 7 := by
    simp [h4]
  have hne : (bytes_to_state (ascon_iv 128 8 12 6 key nonce)).x0
      ≠ (bytes_to_state (ascon_iv (key.length * 8) 8 12 6 key nonce)).x0 := by
    rw [hx 128, hx (key.length * 8), hk, hlen7, Nat.shiftLeft_eq,
      Nat.shiftLeft_eq]
    have h2 : (2 : Nat) ^ (8 * 7) = 72057594037927936 := by norm_num
    rw [h2]
    omega
  exact ⟨fun h => hne (congrArg (fun l => (bytes_to_state l).x0) h), hne⟩

theorem c9_iv_key_size_header_witness :
    ascon_iv 128 8 12 6 (List.replicate 20 3) (List.replicate 16 0)
      ≠ ascon_iv ((List.replicate 20 3).length * 8) 8 12 6
        (List.replicate 20 3) (List.replicate 16 0)
    ∧ (bytes_to_state (ascon_iv 128 8 12 6 (List.replicate 20 3)
        (List.replicate 16 0))).x0
      ≠ (bytes_to_state (ascon_iv ((List.replicate 20 3).length * 8) 8 12 6
        (List.replicate 20 3) (List.replicate 16 0))).x0 :=
  c9_iv_key_size_header (List.replicate 20 3) (List.replicate 16 0) (by decide)
    (by decide)

/-- C5: for every starting state with all five words below `2^64`, every
round count `b ≤ 12` and every plaintext byte string, running
`ascon_process_ciphertext` (rate 8) on the same starting state over the
ciphertext produced by `ascon_process_plaintext` yields exactly the original
plaintext and leaves the state equal to the state `ascon_process_plaintext`
produced (including for a partial or empty last block). -/
theorem c5_process_inversion (S : AsconState) (b : Nat) (pt : List Nat)
    (hS : S.bounded) (hb : b ≤ 12) (hpt : isBytes pt) :
    ascon_process_ciphertext S b 8 (ascon_process_plaintext S b 8 pt).1
      = (pt, (ascon_process_plaintext S b 8 pt).2) :=
  process_inversion_main hS hb hpt

theorem c5_process_inversion_witness :
    ascon_process_ciphertext ⟨1, 2, 3, 4, 5⟩ 6 8
      (ascon_process_plaintext ⟨1, 2, 3, 4, 5⟩ 6 8 [9, 8, 7]).1
      = ([9, 8, 7], (ascon_process_plaintext ⟨1, 2, 3, 4, 5⟩ 6 8 [9, 8, 7]).2) :=
  c5_process_inversion ⟨1, 2, 3, 4, 5⟩ 6 [9, 8, 7] (by decide) (by decide)
    (by decide)

/-- C1 as stated is false for 20-byte keys: because `ascon_encrypt` hardcodes
the key-size header byte 128 while `ascon_decrypt` derives it from the key
length, opening a sealed message under a 20-byte key is an authentication
failure (`None`), not the plaintext. -/
theorem c1_counterexample :
    ((ascon_encrypt (List.replicate 20 0) [] (List.replicate 16 0) []).bind
      (fun c => ascon_decrypt (List.replicate 20 0) [] (List.replicate 16 0) c)
      = some none)
    ∧ ((ascon_encrypt (List.replicate 20 0) [] (List.replicate 16 0) []).bind
      (fun c => ascon_decrypt (List.replicate 20 0) [] (List.replicate 16 0) c)
      ≠ some (some [])) :=
  ⟨by decide, by decide⟩

/-- C1 amended: for every 16-byte key, 16-byte nonce, associated data and
plaintext (all byte strings), opening the sealed output returns exactly the
plaintext: `ascon_decrypt key ad nonce (ascon_encrypt key ad nonce pt)
= some pt`. -/
theorem c1_roundtrip (key ad nonce pt : List Nat) (hkey16 : key.length = 16)
    (hkb : isBytes key) (hnonce : nonce.length = 16) (hnb : isBytes nonce)
    (hab : isBytes ad) (hpt : isBytes pt) (c : List Nat)
    (hc : ascon_encrypt key ad nonce pt = some c) :
    ascon_decrypt key ad nonce c = some (some pt) := by
  have hk : key.length = 16 ∨ key.length = 20 := Or.inl hkey16
  rw [ascon_encrypt_eq key ad nonce pt hk] at hc
  have hc' := (Option.some.inj hc).symm
  subst hc'
  set S1 := ascon_process_associated_data
    ( ascon_initialize 128 8 12 6 key nonce) 6 8 ad with hS1def
  have hS1 : S1.bounded := ascon_process_associated_data_bounded
    ( ascon_initialize_bounded (by norm_num) (by norm_num) (by norm_num)
      (by norm_num) hkb hnb) (by norm_num) (by norm_num) hab
  set PT := ascon_process_plaintext S1 6 8 pt with hPTdef
  have hctlen : PT.1.length = pt.length := by
    rw [hPTdef]
    exact ascon_process_plaintext_length _ _ _
  have htaglen : ( ascon_finalize PT.2 8 12 key).1.length = 16 :=
    ascon_finalize_tag_length _ _ _ _
  have hclen : (PT.1 ++ ( ascon_finalize PT.2 8 12 key).1).length
      = pt.length + 16 := by
    rw [List.length_append, hctlen, htaglen]
  have hkk : key.length * 8 = 128 := by rw [hkey16]
  rw [ascon_decrypt_eq key ad nonce _ (by omega) hk, hkk]
  have htake : (PT.1 ++ ( ascon_finalize PT.2 8 12 key).1).take
      ((PT.1 ++ ( ascon_finalize PT.2 8 12 key).1).length - 16) = PT.1 := by
    rw [hclen, show pt.length + 16 - 16 = pt.length from by omega, ← hctlen]
    exact List.take_left _ _
  have hdrop : (PT.1 ++ ( ascon_finalize PT.2 8 12 key).1).drop
      ((PT.1 ++ ( ascon_finalize PT.2 8 12 key).1).length - 16)
      = ( ascon_finalize PT.2 8 12 key).1 := by
    rw [hclen, show pt.length + 16 - 16 = pt.length from by omega, ← hctlen]
    exact List.drop_left _ _
  rw [← hS1def, htake, hdrop]
  have hinv := process_inversion_main hS1 (by norm_num : (6:Nat) ≤ 12) hpt
  rw [← hPTdef] at hinv
  rw [hinv]
  have heq : ( ascon_finalize (pt, PT.2).2 8 12 key).1
      = ( ascon_finalize PT.2 8 12 key).1 := rfl
  rw [if_pos heq]

theorem c1_roundtrip_witness :
    ascon_decrypt (List.replicate 16 0) [] (List.replicate 16 0)
      [185, 221, 247, 0, 104, 7, 0, 119, 182, 103, 66, 105, 33, 221, 171, 25,
        92, 87, 188] = some (some [1, 2, 3]) :=
  c1_roundtrip (List.replicate 16 0) [] (List.replicate 16 0) [1, 2, 3]
    (by decide) (by decide) (by decide) (by decide) (by decide) (by decide)
    [185, 221, 247, 0, 104, 7, 0, 119, 182, 103, 66, 105, 33, 221, 171, 25,
      92, 87, 188] (by decide)
